import Mathlib

/-!
Verification of the blackrock log-collection subsystem (`src/blackrock/logs.c++`).

The file shallowly embeds the three components of `logs.c++`:

* the per-connection line framer and attributor (`LogSink::ClientHandler`),
* the forwarder (`LogClient`) as a state machine over network events,
* the day-file rotator (`rotateLogs`).

Bytes are modelled as `Nat` (values 0..255), buffers and files as `List Nat`,
and each C++ loop as a structurally recursive Lean function that mirrors the
loop body branch for branch.
-/

namespace Blackrock

/-! ## Line framer: the scanning loop of `LogSink::ClientHandler::run`

One pass of the loop at lines 52-75 of `logs.c++` walks the buffer
(`leftover` bytes retained from the previous pass followed by the bytes just
read), emitting a line at each `'\n'` (byte 10) and force-splitting any
segment that reaches 8192 bytes without one: the byte at the split position
is temporarily replaced by `'\n'` for the emitted line, and the three bytes
before the split are overwritten with `'.'` (byte 46) so that the
continuation begins with a `...` marker.  `scanT` returns the emitted lines
(tagged `true` when the line came from a forced split) together with the
trailing bytes retained for the next pass; `seg` is the portion of the
buffer between `lineStart` and the current index `i`. -/

def consLine (l : List Nat × Bool) (p : List (List Nat × Bool) × List Nat) :
    List (List Nat × Bool) × List Nat :=
  (l :: p.1, p.2)

def scanT : List Nat → List Nat → List (List Nat × Bool) × List Nat
  | seg, [] => ([], seg)
  | seg, b :: rest =>
    if b = 10 then
      consLine (seg ++ [10], false) (scanT [] rest)
    else if 8192 ≤ seg.length then
      consLine (seg ++ [10], true) (scanT ([46, 46, 46] ++ [b]) rest)
    else
      scanT (seg ++ [b]) rest

/-- The whole read loop: each pass scans the retained leftover followed by the
newly read chunk, starting a fresh segment (`lineStart = 0`). -/
def framerSteps : List Nat → List (List Nat) → List (List Nat × Bool) × List Nat
  | left, [] => ([], left)
  | left, c :: cs =>
    ((scanT [] (left ++ c)).1 ++ (framerSteps (scanT [] (left ++ c)).2 cs).1,
      (framerSteps (scanT [] (left ++ c)).2 cs).2)

/-- Reconstruction of the original bytes from the emitted lines and the
retained leftover: a genuine line contributes all its bytes; a force-split
line contributes its bytes without the inserted `'\n'`, and the three `'.'`
marker bytes that were inserted at the head of the following segment are
dropped. -/
def recon : List (List Nat × Bool) → List Nat → List Nat
  | [], left => left
  | (l, false) :: rest, left => l ++ recon rest left
  | (l, true) :: rest, left => l.dropLast ++ (recon rest left).drop 3

/-! ## Attribution: `LogSink::ClientHandler::writeLine`

The first line of a connection is treated as the connection's name when it is
a valid 1–16 character hostname; otherwise the peer address string is used.
The chosen name is deduplicated against the sink's process-lifetime
`namesSeen` set by appending `.1`, `.2`, … (`kj::str(name, '.', counter)`,
decimal rendering) until an unused variant is found. -/

/-- ASCII bytes of a string literal (all our literals are 7-bit ASCII). -/
def asciiBytes (s : String) : List Nat := s.data.map Char.toNat

/-- One character of the name-validation loop: `a-z`, `A-Z`, `0-9`, `-`, `_`. -/
def isNameByte (c : Nat) : Bool :=
  (decide (97 ≤ c) && decide (c ≤ 122)) || (decide (65 ≤ c) && decide (c ≤ 90)) ||
    (decide (48 ≤ c) && decide (c ≤ 57)) || decide (c = 45) || decide (c = 95)

/-- The validity check on the candidate name (first line, `'\n'` stripped). -/
def validName (name : List Nat) : Bool :=
  if name.length > 16 ∨ name.length = 0 then false else name.all isNameByte

/-- Decimal rendering of a natural number, most significant digit first, as
ASCII bytes; fuel-indexed so that it is structurally recursive. -/
def natReprAux : Nat → Nat → List Nat
  | 0, _ => []
  | fuel + 1, n => if n = 0 then [] else natReprAux fuel (n / 10) ++ [48 + n % 10]

/-- Decimal ASCII rendering of a natural number (what `kj::str(counter)`
produces). -/
def natRepr (n : Nat) : List Nat :=
  if n = 0 then [48] else natReprAux n n

/-- `kj::str(name, '.', counter)`. -/
def suffixName (name : List Nat) (k : Nat) : List Nat := name ++ 46 :: natRepr k

/-- The dedup loop: try `name.counter`, `name.(counter+1)`, … until a variant
not yet in `seen` is found.  The C++ loop is unbounded; `seen.length + 1`
rounds of fuel always suffice because the candidates are pairwise distinct. -/
def dedupLoop (seen : List (List Nat)) (name : List Nat) : Nat → Nat → Option (List Nat)
  | 0, _ => none
  | fuel + 1, counter =>
    if suffixName name counter ∈ seen then dedupLoop seen name fuel (counter + 1)
    else some (suffixName name counter)

/-- `sink.namesSeen.insert` followed, on a duplicate, by the dedup loop:
returns the chosen label and the updated registry. -/
def dedupInsert (seen : List (List Nat)) (name : List Nat) : List Nat × List (List Nat) :=
  if name ∈ seen then
    match dedupLoop seen name (seen.length + 1) 1 with
    | some alt => (alt, alt :: seen)
    | none => (name, seen)
  else (name, name :: seen)

/-- The fixed-width per-line tag `" [<name><padding>] "`. -/
def lineTag (name : List Nat) : List Nat :=
  asciiBytes " [" ++ name ++ List.replicate (16 - min name.length 16) 32 ++ asciiBytes "] "

/-- Per-connection handler state plus the sink state it mutates: `pfx` is the
`prefix` string (absent until the first line), `seen` the sink's `namesSeen`,
and `out` the payloads passed to `sink.write` in order. -/
structure HState where
  addrH : List Nat
  pfx : Option (List Nat)
  leftoverH : List Nat
  seen : List (List Nat)
  out : List (List Nat)
  deriving DecidableEq

/-- `ClientHandler::writeLine`. -/
def writeLine (st : HState) (chars : List Nat) : HState :=
  if chars.length = 0 then st
  else
    match st.pfx with
    | some p => { st with out := st.out ++ [p ++ chars] }
    | none =>
      let name0 := chars.dropLast
      let valid := validName name0
      let cand := if valid then name0 else st.addrH
      let chosen := (dedupInsert st.seen cand).1
      let ann :=
        if valid then
          asciiBytes " * " ++ chosen ++ asciiBytes " (" ++ st.addrH ++ asciiBytes ") CONNECTED\n"
        else asciiBytes " * ??? (" ++ st.addrH ++ asciiBytes ") CONNECTED\n"
      if valid then
        { st with seen := (dedupInsert st.seen cand).2, out := st.out ++ [ann],
                  pfx := some (lineTag chosen) }
      else
        { st with seen := (dedupInsert st.seen cand).2,
                  out := st.out ++ [ann, lineTag chosen ++ chars],
                  pfx := some (lineTag chosen) }

/-- One pass of `ClientHandler::run` on a nonempty read: scan
`leftover ++ chunk`, feed every completed line to `writeLine`, retain the
tail. -/
def hStep (st : HState) (chunk : List Nat) : HState :=
  { (((scanT [] (st.leftoverH ++ chunk)).1).foldl (fun s l => writeLine s l.1) st) with
    leftoverH := (scanT [] (st.leftoverH ++ chunk)).2 }

/-- The `amount == 0` (EOF) branch of `ClientHandler::run`: with no assigned
name nothing is printed; otherwise a nonempty leftover is flushed as a final
line and a `DISCONNECTED` marker is written. -/
def hEof (st : HState) : HState :=
  match st.pfx with
  | none => st
  | some _ =>
    writeLine (if st.leftoverH.length > 0 then writeLine st (st.leftoverH ++ [10]) else st)
      (asciiBytes "DISCONNECTED\n")

def initH (addr : List Nat) (seen : List (List Nat)) : HState :=
  { addrH := addr, pfx := none, leftoverH := [], seen := seen, out := [] }

/-- A whole connection: the given chunks arrive in order, then EOF. -/
def runHandler (addr : List Nat) (seen : List (List Nat)) (chunks : List (List Nat)) : HState :=
  hEof (chunks.foldl hStep (initH addr seen))

/-- The sequence of labels produced when `n` streams in turn present the same
candidate name to `dedupInsert`. -/
def assignLabels : List (List Nat) → List Nat → Nat → List (List Nat)
  | _, _, 0 => []
  | seen, cand, n + 1 =>
    (dedupInsert seen cand).1 :: assignLabels (dedupInsert seen cand).2 cand n

/-- Label of the `i`-th colliding stream (0-based): the candidate itself for
the first, `candidate.i` for the rest. -/
def labOf (name : List Nat) (i : Nat) : List Nat :=
  if i = 0 then name else suffixName name i

/-! ## The forwarder: `LogClient` as a state machine

`LogClient` owns at most one outbound connection.  Its observable state is

* `mode`: `disconnected` (reconnect loop running), `draining` (connected,
  still replaying the backlog file, `connection` not yet set), `live`
  (connection active), or `liveEof` (connection active but the background
  `awaitEof` watcher has seen peer EOF / a read error, i.e. `receivedEof`;
  this is also exactly the condition under which `reconnectTask` has
  resolved),
* `backlog`: the bytes of the on-disk backlog file,
* `backlogOffset`: the read cursor into that file,
* `log`: the chunks handed to `AsyncIoStream::write` during backlog drains
  and live writes, in order, each tagged with whether the write succeeded.

Environment events carry the outcomes the network can produce: an input
chunk read from the local source (with the outcome of its direct write, used
only in `live` mode), success or failure of a reconnect attempt (failure
covers dial errors and name-line write errors), one iteration of the
backlog-drain loop with its write outcome, and the `awaitEof` watcher
observing peer EOF or a read error. -/

inductive Mode
  | disconnected
  | draining
  | live
  | liveEof
  deriving DecidableEq

structure ClientState where
  mode : Mode
  backlog : List Nat
  backlogOffset : Nat
  log : List (List Nat × Bool)
  deriving DecidableEq

inductive Ev
  | input : List Nat → Bool → Ev
  | connectOk : Ev
  | connectFail : Ev
  | drainStep : Bool → Ev
  | peerEof : Ev
  deriving DecidableEq

/-- Size of the next `pread` from the backlog: up to `sizeof(backlogBuffer)`
= 4096 bytes starting at the cursor. -/
def preadLen (st : ClientState) : Nat :=
  min 4096 (st.backlog.length - st.backlogOffset)

/-- The bytes that `pread` returns. -/
def preadChunk (st : ClientState) : List Nat :=
  (st.backlog.drop st.backlogOffset).take (preadLen st)

/-- One event of the `LogClient` machine, mirroring `LogClient::run` (the
per-chunk decision queued on `writeQueue`), `reconnectLoop`,
`LogClient::writeBacklog(newConnection)` (one iteration: `pread`, cursor
advance, write, and on failure a restart of `reconnectLoop`), and
`awaitEof`. -/
def step (st : ClientState) : Ev → ClientState
  | .input data ok =>
    match st.mode with
    | .disconnected => { st with backlog := st.backlog ++ data }
    | .draining => { st with backlog := st.backlog ++ data }
    | .liveEof => { st with mode := .disconnected, backlog := st.backlog ++ data }
    | .live =>
      if ok then { st with log := st.log ++ [(data, true)] }
      else { st with mode := .disconnected, backlog := st.backlog ++ data }
  | .connectOk =>
    match st.mode with
    | .disconnected => { st with mode := .draining }
    | _ => st
  | .connectFail => st
  | .drainStep ok =>
    match st.mode with
    | .draining =>
      if preadLen st = 0 then
        { st with mode := .live, backlog := [], backlogOffset := 0 }
      else if ok then
        { st with backlogOffset := st.backlogOffset + preadLen st,
                  log := st.log ++ [(preadChunk st, true)] }
      else
        { st with mode := .disconnected,
                  backlogOffset := st.backlogOffset + preadLen st,
                  log := st.log ++ [(preadChunk st, false)] }
    | _ => st
  | .peerEof =>
    match st.mode with
    | .live => { st with mode := .liveEof }
    | _ => st

def initClient : ClientState :=
  { mode := .disconnected, backlog := [], backlogOffset := 0, log := [] }

def runClient (evs : List Ev) : ClientState := evs.foldl step initClient

/-- Undelivered tail of the backlog file (bytes at or past the cursor). -/
def pend (st : ClientState) : List Nat := st.backlog.drop st.backlogOffset

/-- All bytes ever handed to a connection write (successful or not), in
order, followed by the undelivered backlog tail. -/
def allBytes (st : ClientState) : List Nat := (st.log.map Prod.fst).flatten ++ pend st

/-- Bytes whose write succeeded, i.e. what actually reached the collector. -/
def deliveredBytes (st : ClientState) : List Nat :=
  ((st.log.filter (fun x => x.2)).map Prod.fst).flatten

/-- Bytes of the local input chunks carried by an event list. -/
def inputBytes (evs : List Ev) : List Nat :=
  (evs.map (fun e => match e with | .input d _ => d | _ => [])).flatten

/-- The state invariant: the cursor never passes the end of the backlog file,
and in `live`/`liveEof` mode the backlog file is empty with the cursor reset
(it was truncated when the drain completed). -/
def Inv (st : ClientState) : Prop :=
  st.backlogOffset ≤ st.backlog.length ∧
    ((st.mode = .live ∨ st.mode = .liveEof) → (st.backlog = [] ∧ st.backlogOffset = 0))

/-- Bytes carried by an event (the local input chunk, if any). -/
def evData : Ev → List Nat
  | .input d _ => d
  | _ => []

/-! ## Shutdown: the EOF branch of `LogClient::run`

On local-source EOF, after `writeQueue` drains, the process races
`reconnectTask.then(unlink backlog)` against `timer.afterDelay(30s)`
(`exclusiveJoin`).  `reconnectTask` resolves exactly when a backlog drain has
completed *and* the `awaitEof` watcher has then observed peer EOF or a read
error — i.e. exactly when the machine is in `liveEof` mode.  `shutdownRun`
consumes post-EOF events in order: if the task is resolved the file is
unlinked (`true`); a `timeout` event means the 30-second grace timer fired
first, so the process exits leaving the file (`false`). -/

inductive PostEv
  | ev : Ev → PostEv
  | timeout : PostEv
  deriving DecidableEq

def shutdownRun (st : ClientState) : List PostEv → ClientState × Bool
  | [] => if st.mode = .liveEof then (st, true) else (st, false)
  | pe :: rest =>
    if st.mode = .liveEof then (st, true)
    else
      match pe with
      | .timeout => (st, false)
      | .ev e => shutdownRun (step st e) rest

/-! ## The rotator: `rotateLogs`

`rotateLogs` reads chunks from its input; on each nonempty chunk it opens the
day file named for the current `day` variable if none is open, appends the
chunk verbatim, and then — if the wall-clock day has advanced past `day` and
the chunk ended in `'\n'` — closes the file and bumps `day`, deferring the
next open to the next chunk.  We record each append as a pair
`(day the open file is named for, chunk)`; `dayNow` is the value
`currentDay()` returns right after the write. -/

structure RotState where
  day : Nat
  isOpen : Bool
  writes : List (Nat × List Nat)
  deriving DecidableEq

def rotStep (st : RotState) (chunk : List Nat) (dayNow : Nat) : RotState :=
  if st.day < dayNow ∧ chunk.getLast? = some 10 then
    { day := dayNow, isOpen := false, writes := st.writes ++ [(st.day, chunk)] }
  else
    { st with isOpen := true, writes := st.writes ++ [(st.day, chunk)] }

def rotRun (st : RotState) : List (List Nat × Nat) → RotState
  | [] => st
  | (c, d) :: rest => rotRun (rotStep st c d) rest

def initRot (d0 : Nat) : RotState := { day := d0, isOpen := false, writes := [] }

/-- No line is split across two day files: whenever two consecutive appends
went to files of different days, the earlier chunk ended in a newline — so a
line whose bytes span consecutive chunks (the earlier one not
newline-terminated) always lands in a single file. -/
def NoSplit (ws : List (Nat × List Nat)) : Prop :=
  List.Chain' (fun a b => a.1 ≠ b.1 → a.2.getLast? = some 10) ws

def RotInv (st : RotState) : Prop :=
  NoSplit st.writes ∧
    ∀ x ∈ st.writes.getLast?, x.1 ≠ st.day → x.2.getLast? = some 10

@[simp] theorem consLine_fst (l : List Nat × Bool) (p) : (consLine l p).1 = l :: p.1 := rfl

@[simp] theorem consLine_snd (l : List Nat × Bool) (p) : (consLine l p).2 = p.2 := rfl

theorem scanT_cons_nl (seg rest : List Nat) :
    scanT seg (10 :: rest) = consLine (seg ++ [10], false) (scanT [] rest) := by
  simp [scanT]

theorem scanT_cons_force (seg : List Nat) (b : Nat) (rest : List Nat)
    (hb : b ≠ 10) (h : 8192 ≤ seg.length) :
    scanT seg (b :: rest) = consLine (seg ++ [10], true) (scanT ([46, 46, 46] ++ [b]) rest) := by
  simp [scanT, hb, h]

theorem scanT_cons_plain (seg : List Nat) (b : Nat) (rest : List Nat)
    (hb : b ≠ 10) (h : ¬ 8192 ≤ seg.length) :
    scanT seg (b :: rest) = scanT (seg ++ [b]) rest := by
  simp [scanT, hb, h]

theorem recon_append (l1 l2 : List (List Nat × Bool)) (left : List Nat) :
    recon (l1 ++ l2) left = recon l1 (recon l2 left) := by
  induction l1 with
  | nil => simp [recon]
  | cons hd tl ih =>
    obtain ⟨l, f⟩ := hd
    cases f <;> simp [recon, ih]

theorem scanT_recon (rest : List Nat) : ∀ (seg tail : List Nat),
    recon (scanT seg rest).1 ((scanT seg rest).2 ++ tail) = seg ++ rest ++ tail := by
  induction rest with
  | nil => intro seg tail; simp [scanT, recon]
  | cons b rest ih =>
    intro seg tail
    by_cases hb : b = 10
    · subst hb
      rw [scanT_cons_nl]
      simp only [consLine_fst, consLine_snd, recon]
      rw [ih [] tail]
      simp
    · by_cases hlen : 8192 ≤ seg.length
      · rw [scanT_cons_force seg b rest hb hlen]
        simp only [consLine_fst, consLine_snd, recon]
        rw [List.dropLast_concat, ih ([46, 46, 46] ++ [b]) tail]
        simp
      · rw [scanT_cons_plain seg b rest hb hlen]
        rw [ih (seg ++ [b]) tail]
        simp

theorem scanT_leftover (rest : List Nat) : ∀ seg : List Nat,
    seg.length ≤ 8192 → (scanT seg rest).2.length ≤ 8192 := by
  induction rest with
  | nil => intro seg h; simpa [scanT] using h
  | cons b rest ih =>
    intro seg h
    by_cases hb : b = 10
    · subst hb
      rw [scanT_cons_nl, consLine_snd]
      exact ih [] (by simp)
    · by_cases hlen : 8192 ≤ seg.length
      · rw [scanT_cons_force seg b rest hb hlen, consLine_snd]
        exact ih ([46, 46, 46] ++ [b]) (by simp)
      · rw [scanT_cons_plain seg b rest hb hlen]
        exact ih (seg ++ [b]) (by simp; omega)

theorem scanT_lines (rest : List Nat) : ∀ seg : List Nat, seg.length ≤ 8192 →
    ∀ p ∈ (scanT seg rest).1, p.1.length ≤ 8193 ∧ p.1.getLast? = some 10 := by
  induction rest with
  | nil => intro seg _ p hp; simp [scanT] at hp
  | cons b rest ih =>
    intro seg h p hp
    by_cases hb : b = 10
    · subst hb
      rw [scanT_cons_nl, consLine_fst, List.mem_cons] at hp
      rcases hp with hp | hp
      · subst hp
        constructor
        · simp; omega
        · exact List.getLast?_concat _
      · exact ih [] (by simp) p hp
    · by_cases hlen : 8192 ≤ seg.length
      · rw [scanT_cons_force seg b rest hb hlen, consLine_fst, List.mem_cons] at hp
        rcases hp with hp | hp
        · subst hp
          constructor
          · simp; omega
          · exact List.getLast?_concat _
        · exact ih ([46, 46, 46] ++ [b]) (by simp) p hp
      · rw [scanT_cons_plain seg b rest hb hlen] at hp
        exact ih (seg ++ [b]) (by simp; omega) p hp

theorem framerSteps_recon (chunks : List (List Nat)) : ∀ left : List Nat,
    recon (framerSteps left chunks).1 (framerSteps left chunks).2 =
      left ++ chunks.flatten := by
  induction chunks with
  | nil => intro left; simp [framerSteps, recon]
  | cons c cs ih =>
    intro left
    simp only [framerSteps]
    rw [recon_append, ih ((scanT [] (left ++ c)).2)]
    have := scanT_recon (left ++ c) [] (cs.flatten)
    simp only [List.nil_append] at this
    rw [this]
    simp

theorem framerSteps_leftover (chunks : List (List Nat)) : ∀ left : List Nat,
    left.length ≤ 8192 → (framerSteps left chunks).2.length ≤ 8192 := by
  induction chunks with
  | nil => intro left h; simpa [framerSteps] using h
  | cons c cs ih =>
    intro left _
    simp only [framerSteps]
    exact ih _ (scanT_leftover (left ++ c) [] (by simp))

theorem framerSteps_lines (chunks : List (List Nat)) : ∀ left : List Nat,
    ∀ p ∈ (framerSteps left chunks).1, p.1.length ≤ 8193 ∧ p.1.getLast? = some 10 := by
  induction chunks with
  | nil => intro left p hp; simp [framerSteps] at hp
  | cons c cs ih =>
    intro left p hp
    simp only [framerSteps, List.mem_append] at hp
    rcases hp with hp | hp
    · exact scanT_lines (left ++ c) [] (by simp) p hp
    · exact ih _ p hp

/-- C3: every display line emitted by the line framer has at most 8192 bytes of
content before its terminating line break (8193 bytes counting the break), it
always ends in a line break, and the concatenation of the emitted lines with
the inserted forced line breaks and the inserted `...` continuation markers
removed — together with the still-retained trailing bytes — is exactly the
original inbound byte stream. -/
theorem framer_split_bound_and_reconstruct (chunks : List (List Nat))
    (p : List Nat × Bool) (hp : p ∈ (framerSteps [] chunks).1) :
    p.1.length ≤ 8193 ∧ p.1.getLast? = some 10 ∧
      recon (framerSteps [] chunks).1 (framerSteps [] chunks).2 = chunks.flatten := by
  refine ⟨(framerSteps_lines chunks [] p hp).1, (framerSteps_lines chunks [] p hp).2, ?_⟩
  simpa using framerSteps_recon chunks []

/-- Witness for `framer_split_bound_and_reconstruct`: a concrete stream of two
chunks, one of which force-splits nothing and ends in a newline. -/
theorem framer_split_bound_and_reconstruct_witness :
    (([104, 105, 10], false) : List Nat × Bool) ∈ (framerSteps [] [[104, 105, 10]]).1 ∧
      ([104, 105, 10] : List Nat).length ≤ 8193 ∧
      recon (framerSteps [] [[104, 105, 10]]).1 (framerSteps [] [[104, 105, 10]]).2 =
        [104, 105, 10] := by
  have hm : (([104, 105, 10], false) : List Nat × Bool) ∈ (framerSteps [] [[104, 105, 10]]).1 := by
    decide
  have h := framer_split_bound_and_reconstruct [[104, 105, 10]] ([104, 105, 10], false) hm
  exact ⟨hm, h.1, by simpa using h.2.2⟩

/-- C9: after every line-scanning pass the retained leftover is at most 8192
bytes, so at the next `tryRead` the 16384-byte receive buffer has at least
8192 bytes free, and in particular the read can always request at least one
byte (the `tryRead(buffer + leftover, 1, sizeof(buffer) - leftover)` call is
well-formed). -/
theorem framer_leftover_bound (chunks : List (List Nat)) :
    (framerSteps [] chunks).2.length ≤ 8192 ∧
      8192 ≤ 16384 - (framerSteps [] chunks).2.length ∧
      1 ≤ 16384 - (framerSteps [] chunks).2.length := by
  have h := framerSteps_leftover chunks [] (by simp)
  exact ⟨h, by omega, by omega⟩

/-- C4 counterexample: the stream consisting of the five bytes `hello` (no
trailing newline) followed by EOF produces **no output at all**, although
bytes were received: the EOF branch keys on `prefix == nullptr`, which is
still null because no line was ever completed, so neither a flushed `hello`
line nor a `DISCONNECTED` marker is emitted — contradicting the claim. -/
theorem handler_eof_hello_counterexample :
    asciiBytes "hello" ≠ [] ∧
      (runHandler (asciiBytes "10.0.0.5:1234") [] [asciiBytes "hello"]).out = [] := by
  decide

/-- C4 (amended): on end-of-stream the handler flushes leftover bytes as a
final line (delimiter appended) and then emits the `DISCONNECTED` marker
exactly when a first line was previously completed (the `prefix` was
assigned); when no line was ever completed — in particular when zero bytes
were received, but also when bytes arrived without any line break — nothing
at all is output at EOF. -/
theorem handler_eof_behavior (st : HState) :
    (st.pfx = none → hEof st = st) ∧
      (∀ p, st.pfx = some p → 0 < st.leftoverH.length →
        (hEof st).out = st.out ++ [p ++ st.leftoverH ++ [10], p ++ asciiBytes "DISCONNECTED\n"]) ∧
      (∀ p, st.pfx = some p → st.leftoverH.length = 0 →
        (hEof st).out = st.out ++ [p ++ asciiBytes "DISCONNECTED\n"]) ∧
      (∀ (addr : List Nat) (seen : List (List Nat)),
        (runHandler addr seen []).out = []) := by
  refine ⟨?_, ?_, ?_, ?_⟩
  · intro h; simp [hEof, h]
  · intro p hp hl
    have hlv : st.leftoverH ≠ [] := by
      intro h; rw [h] at hl; simp at hl
    simp only [hEof, hp, if_pos hl]
    have h1 : (st.leftoverH ++ [10]).length ≠ 0 := by simp
    simp only [writeLine, h1, if_false, hp, asciiBytes]
    simp [asciiBytes]
  · intro p hp hl
    have : ¬ 0 < st.leftoverH.length := by omega
    simp only [hEof, hp, if_neg this]
    simp [writeLine, hp, asciiBytes]
  · intro addr seen
    simp [runHandler, hEof, initH]

/-- Witness for `handler_eof_behavior`: a state with an assigned prefix and a
nonempty leftover flushes the leftover and the marker. -/
theorem handler_eof_behavior_witness :
    (hEof { addrH := [97], pfx := some [32], leftoverH := [104], seen := [], out := [] }).out =
      [[32] ++ [104] ++ [10], [32] ++ asciiBytes "DISCONNECTED\n"] := by
  have h := (handler_eof_behavior
    { addrH := [97], pfx := some [32], leftoverH := [104], seen := [], out := [] }).2.1
    [32] rfl (by decide)
  simpa using h

/-! ### Deduplication: distinctness of the numeric suffixes -/

theorem natReprAux_eq_digits : ∀ fuel n, n ≤ fuel →
    natReprAux fuel n = ((Nat.digits 10 n).map (fun d => 48 + d)).reverse := by
  intro fuel
  induction fuel with
  | zero =>
    intro n hn
    interval_cases n
    simp [natReprAux]
  | succ f ih =>
    intro n hn
    by_cases h0 : n = 0
    · subst h0; simp [natReprAux]
    · have hd : Nat.digits 10 n = n % 10 :: Nat.digits 10 (n / 10) :=
        Nat.digits_def' (by norm_num) (Nat.pos_of_ne_zero h0)
      have hdiv : n / 10 ≤ f := by
        have := Nat.div_lt_self (Nat.pos_of_ne_zero h0) (by norm_num : 1 < 10)
        omega
      simp only [natReprAux, h0, if_false, hd, List.map_cons, List.reverse_cons, ih _ hdiv]

theorem natRepr_inj {a b : Nat} (h : natRepr a = natRepr b) : a = b := by
  have digits_of : ∀ n : Nat, n ≠ 0 →
      natRepr n = ((Nat.digits 10 n).map (fun d => 48 + d)).reverse := by
    intro n hn
    simp only [natRepr, hn, if_false]
    exact natReprAux_eq_digits n n le_rfl
  by_cases ha : a = 0 <;> by_cases hb : b = 0
  · omega
  · exfalso
    rw [ha, digits_of b hb] at h
    have h' : (Nat.digits 10 b).map (fun d => 48 + d) = [48] := by
      have := congrArg List.reverse h
      simpa [natRepr] using this.symm
    have hdig0 : Nat.digits 10 b = [0] := by
      rcases hdig : Nat.digits 10 b with _ | ⟨d, ds⟩
      · rw [hdig] at h'; simp at h'
      · rw [hdig] at h'
        simp only [List.map_cons] at h'
        have hds : ds = [] := List.map_eq_nil_iff.mp (List.cons.inj h').2
        have hd := (List.cons.inj h').1
        simp [hds]
        omega
    have h2 := Nat.ofDigits_digits 10 b
    rw [hdig0] at h2
    simp [Nat.ofDigits] at h2
    exact hb h2.symm
  · exfalso
    rw [hb, digits_of a ha] at h
    have h' : (Nat.digits 10 a).map (fun d => 48 + d) = [48] := by
      have := congrArg List.reverse h
      simpa [natRepr] using this
    have hdig0 : Nat.digits 10 a = [0] := by
      rcases hdig : Nat.digits 10 a with _ | ⟨d, ds⟩
      · rw [hdig] at h'; simp at h'
      · rw [hdig] at h'
        simp only [List.map_cons] at h'
        have hds : ds = [] := List.map_eq_nil_iff.mp (List.cons.inj h').2
        have hd := (List.cons.inj h').1
        simp [hds]
        omega
    have h2 := Nat.ofDigits_digits 10 a
    rw [hdig0] at h2
    simp [Nat.ofDigits] at h2
    exact ha h2.symm
  · rw [digits_of a ha, digits_of b hb] at h
    have h1 : (Nat.digits 10 a).map (fun d => 48 + d) =
        (Nat.digits 10 b).map (fun d => 48 + d) := List.reverse_injective h
    have h2 : Nat.digits 10 a = Nat.digits 10 b := by
      have hinj : Function.Injective (fun d : Nat => 48 + d) :=
        fun x y hxy => Nat.add_left_cancel hxy
      exact List.map_injective_iff.mpr hinj h1
    calc a = Nat.ofDigits 10 (Nat.digits 10 a) := (Nat.ofDigits_digits 10 a).symm
      _ = Nat.ofDigits 10 (Nat.digits 10 b) := by rw [h2]
      _ = b := Nat.ofDigits_digits 10 b

theorem suffixName_inj {name : List Nat} {k1 k2 : Nat}
    (h : suffixName name k1 = suffixName name k2) : k1 = k2 := by
  unfold suffixName at h
  have h1 := List.append_cancel_left h
  exact natRepr_inj (List.cons.inj h1).2

theorem suffixName_ne_base (name : List Nat) (k : Nat) : suffixName name k ≠ name := by
  intro h
  have := congrArg List.length h
  simp [suffixName] at this

/-- If every candidate below `m` is taken, `m`'s candidate is free, and there
is enough fuel to reach `m`, the dedup loop returns exactly candidate `m`. -/
theorem dedupLoop_eq (seen : List (List Nat)) (name : List Nat) :
    ∀ fuel start m, start ≤ m → m < start + fuel →
      (∀ c, start ≤ c → c < m → suffixName name c ∈ seen) →
      suffixName name m ∉ seen →
      dedupLoop seen name fuel start = some (suffixName name m) := by
  intro fuel
  induction fuel with
  | zero => intro start m h1 h2; omega
  | succ f ih =>
    intro start m h1 h2 hall hfree
    by_cases hsm : start = m
    · subst hsm
      simp [dedupLoop, hfree]
    · have hmem : suffixName name start ∈ seen := hall start le_rfl (by omega)
      simp only [dedupLoop, if_pos hmem]
      exact ih (start + 1) m (by omega) (by omega) (fun c hc1 hc2 => hall c (by omega) hc2) hfree

theorem assign_aux (name : List Nat) (init : List (List Nat))
    (hfresh : ∀ k, suffixName name k ∉ init) :
    ∀ n j, 1 ≤ j →
      assignLabels (((List.range j).map (labOf name)).reverse ++ init) name n =
        (List.range' j n).map (suffixName name) := by
  intro n
  induction n with
  | zero => intro j hj; simp [assignLabels]
  | succ n ih =>
    intro j hj
    set seen := ((List.range j).map (labOf name)).reverse ++ init with hseen
    have hmem : name ∈ seen := by
      simp only [hseen, List.mem_append, List.mem_reverse, List.mem_map, List.mem_range]
      exact Or.inl ⟨0, by omega, by simp [labOf]⟩
    have hnotin : suffixName name j ∉ seen := by
      simp only [hseen, List.mem_append, List.mem_reverse, List.mem_map, List.mem_range]
      rintro (⟨i, hi, hlab⟩ | hinit)
      · by_cases hi0 : i = 0
        · subst hi0
          simp only [labOf, if_pos rfl] at hlab
          exact suffixName_ne_base name j hlab.symm
        · simp only [labOf, if_neg hi0] at hlab
          have := suffixName_inj hlab
          omega
      · exact hfresh j hinit
    have htaken : ∀ c, 1 ≤ c → c < j → suffixName name c ∈ seen := by
      intro c h1 h2
      simp only [hseen, List.mem_append, List.mem_reverse, List.mem_map, List.mem_range]
      exact Or.inl ⟨c, h2, by simp [labOf]; omega⟩
    have hlen : seen.length = j + init.length := by simp [hseen]
    have hloop : dedupLoop seen name (seen.length + 1) 1 = some (suffixName name j) :=
      dedupLoop_eq seen name (seen.length + 1) 1 j hj (by omega) htaken hnotin
    have hins : dedupInsert seen name = (suffixName name j, suffixName name j :: seen) := by
      simp [dedupInsert, hmem, hloop]
    have hseen' : suffixName name j :: seen =
        ((List.range (j + 1)).map (labOf name)).reverse ++ init := by
      rw [List.range_succ]
      have hj0 : ¬ j = 0 := by omega
      simp [hseen, labOf, hj0]
    have hstep : assignLabels seen name (n + 1) =
        suffixName name j :: assignLabels (suffixName name j :: seen) name n := by
      rw [assignLabels, hins]
    rw [hstep, hseen', ih (j + 1) (by omega), List.range'_succ]
    simp

/-- C6: (1) a candidate first-line label passes validation exactly when it has
1 to 16 bytes, each an ASCII letter, digit, `-` or `_`; (2) on an invalid
candidate, `writeLine` assigns the connection the peer-address-derived label
instead; (3) when `n` streams in turn present the same candidate name to a
registry containing neither the name nor any of its numeric suffixes, the
assigned labels are the candidate itself for the first stream and
`candidate.1`, `candidate.2`, … for the rest (`labOf`), pairwise distinct. -/
theorem label_validation_and_dedup :
    (∀ name : List Nat, validName name = true ↔
      (1 ≤ name.length ∧ name.length ≤ 16 ∧ ∀ c ∈ name,
        (97 ≤ c ∧ c ≤ 122) ∨ (65 ≤ c ∧ c ≤ 90) ∨ (48 ≤ c ∧ c ≤ 57) ∨ c = 45 ∨ c = 95)) ∧
    (∀ (st : HState) (chars : List Nat), chars.length ≠ 0 → st.pfx = none →
      validName chars.dropLast = false →
      (writeLine st chars).pfx = some (lineTag (dedupInsert st.seen st.addrH).1)) ∧
    (∀ (init : List (List Nat)) (name : List Nat) (n : Nat),
      name ∉ init → (∀ k, suffixName name k ∉ init) →
      assignLabels init name n = (List.range n).map (labOf name) ∧
        ((List.range n).map (labOf name)).Nodup) := by
  refine ⟨?_, ?_, ?_⟩
  · intro name
    constructor
    · intro h
      have h' : (name.length ≤ 16 ∧ ¬name = []) ∧ ∀ x ∈ name, isNameByte x = true := by
        simpa [validName] using h
      refine ⟨List.length_pos.mpr h'.1.2, h'.1.1, ?_⟩
      intro c hcm
      have hx := h'.2 c hcm
      simp only [isNameByte, Bool.or_eq_true, Bool.and_eq_true, decide_eq_true_eq] at hx
      tauto
    · rintro ⟨h1, h2, h3⟩
      have hc : ¬(name.length > 16 ∨ name.length = 0) := by omega
      simp only [validName, if_neg hc, List.all_eq_true]
      intro c hcm
      have hx := h3 c hcm
      simp only [isNameByte, Bool.or_eq_true, Bool.and_eq_true, decide_eq_true_eq]
      tauto
  · intro st chars hlen hpfx hval
    obtain ⟨a, pfx0, l, s, o⟩ := st
    simp only at hpfx
    subst hpfx
    simp [writeLine, hlen, hval]
  · intro init name n hname hfresh
    constructor
    · cases n with
      | zero => simp [assignLabels]
      | succ n =>
        have hstart : name :: init = ((List.range 1).map (labOf name)).reverse ++ init := by
          simp [List.range_succ, List.range_zero, labOf]
        have hstep : assignLabels init name (n + 1) =
            name :: assignLabels (name :: init) name n := by
          simp [assignLabels, dedupInsert, hname]
        rw [hstep, hstart, assign_aux name init hfresh n 1 le_rfl]
        have hrange : List.range (n + 1) = 0 :: List.range' 1 n := by
          rw [List.range_eq_range', List.range'_succ]
        rw [hrange, List.map_cons]
        refine congrArg₂ List.cons (by simp [labOf]) ?_
        refine (List.map_congr_left ?_).symm
        intro i hi
        obtain ⟨k, hk, rfl⟩ := List.mem_range'.mp hi
        have hne : ¬ 1 + 1 * k = 0 := by omega
        simp [labOf, hne]
    · refine (List.nodup_range n).map_on ?_
      intro x hx y hy hxy
      by_cases hx0 : x = 0 <;> by_cases hy0 : y = 0
      · omega
      · subst hx0
        simp only [labOf, if_pos rfl, if_neg hy0] at hxy
        exact absurd hxy.symm (suffixName_ne_base name y)
      · subst hy0
        simp only [labOf, if_neg hx0, if_pos rfl] at hxy
        exact absurd hxy (suffixName_ne_base name x)
      · simp only [labOf, if_neg hx0, if_neg hy0] at hxy
        exact suffixName_inj hxy

/-- Witness for `label_validation_and_dedup`: two streams colliding on the
candidate `hs` against an empty registry get `hs` and `hs.1`. -/
theorem label_validation_and_dedup_witness :
    assignLabels [] [104, 115] 2 = (List.range 2).map (labOf [104, 115]) ∧
      ((List.range 2).map (labOf [104, 115])).Nodup := by
  exact label_validation_and_dedup.2.2 [] [104, 115] 2 (by simp) (fun k => by simp)

theorem inv_init : Inv initClient := by
  constructor <;> simp [initClient]

theorem inputBytes_cons (e : Ev) (evs : List Ev) :
    inputBytes (e :: evs) = evData e ++ inputBytes evs := by
  cases e <;> simp [inputBytes, evData]

theorem pread_split (st : ClientState) :
    preadChunk st ++ st.backlog.drop (st.backlogOffset + preadLen st) = pend st := by
  have h : st.backlog.drop (st.backlogOffset + preadLen st) =
      (st.backlog.drop st.backlogOffset).drop (preadLen st) := by
    rw [List.drop_drop]
  rw [preadChunk, pend, h, List.take_append_drop]

theorem step_inv {st : ClientState} (e : Ev) (h : Inv st) : Inv (step st e) := by
  obtain ⟨m, bk, off, lg⟩ := st
  obtain ⟨h1, h2⟩ := h
  simp only at h1 h2
  cases e with
  | input data ok =>
    cases m with
    | disconnected => exact ⟨by simp [step]; omega, by simp [step]⟩
    | draining => exact ⟨by simp [step]; omega, by simp [step]⟩
    | liveEof => exact ⟨by simp [step]; omega, by simp [step]⟩
    | live =>
      cases ok with
      | true => exact ⟨h1, fun _ => h2 (Or.inl rfl)⟩
      | false => exact ⟨by simp [step]; omega, by simp [step]⟩
  | connectOk =>
    cases m with
    | disconnected => exact ⟨h1, by simp [step]⟩
    | draining => exact ⟨h1, h2⟩
    | live => exact ⟨h1, h2⟩
    | liveEof => exact ⟨h1, h2⟩
  | connectFail => exact ⟨h1, h2⟩
  | drainStep ok =>
    cases m with
    | draining =>
      by_cases hn : preadLen ⟨.draining, bk, off, lg⟩ = 0
      · simp only [step, hn, if_pos rfl]
        exact ⟨by simp, by simp⟩
      · have hle : preadLen ⟨.draining, bk, off, lg⟩ ≤ bk.length - off :=
          min_le_right _ _
        cases ok with
        | true =>
          simp only [step, hn, if_neg hn, if_pos rfl]
          constructor
          · simp only [preadLen] at hle ⊢
            simp
            omega
          · simp
        | false =>
          simp only [step, hn, if_neg hn]
          constructor
          · simp only [preadLen] at hle ⊢
            simp
            omega
          · simp
    | disconnected => exact ⟨h1, h2⟩
    | live => exact ⟨h1, h2⟩
    | liveEof => exact ⟨h1, h2⟩
  | peerEof =>
    cases m with
    | live => exact ⟨h1, fun _ => h2 (Or.inl rfl)⟩
    | disconnected => exact ⟨h1, h2⟩
    | draining => exact ⟨h1, h2⟩
    | liveEof => exact ⟨h1, h2⟩

theorem step_bytes {st : ClientState} (e : Ev) (h : Inv st) :
    allBytes (step st e) = allBytes st ++ evData e := by
  obtain ⟨m, bk, off, lg⟩ := st
  obtain ⟨h1, h2⟩ := h
  simp only at h1 h2
  cases e with
  | input data ok =>
    cases m with
    | disconnected =>
      simp only [step, allBytes, pend, evData]
      rw [List.drop_append_of_le_length h1]
      simp
    | draining =>
      simp only [step, allBytes, pend, evData]
      rw [List.drop_append_of_le_length h1]
      simp
    | liveEof =>
      obtain ⟨hb, ho⟩ := h2 (Or.inr rfl)
      subst hb; subst ho
      simp [step, allBytes, pend, evData]
    | live =>
      obtain ⟨hb, ho⟩ := h2 (Or.inl rfl)
      subst hb; subst ho
      cases ok with
      | true => simp [step, allBytes, pend, evData]
      | false => simp [step, allBytes, pend, evData]
  | connectOk =>
    cases m <;> simp [step, allBytes, pend, evData]
  | connectFail => simp [step, allBytes, pend, evData]
  | drainStep ok =>
    cases m with
    | draining =>
      by_cases hn : preadLen ⟨.draining, bk, off, lg⟩ = 0
      · have hd : bk.drop off = [] := by
          apply List.drop_eq_nil_of_le
          simp only [preadLen] at hn
          omega
        simp only [step, hn, if_pos rfl]
        simp [allBytes, pend, evData, hd]
      · have hsplit := pread_split ⟨.draining, bk, off, lg⟩
        cases ok with
        | true =>
          simp only [step, if_neg hn, if_pos rfl]
          rw [if_pos trivial]
          simp only [allBytes, pend, evData, List.map_append, List.flatten_append,
            List.map_cons, List.map_nil, List.flatten_cons, List.flatten_nil, List.append_nil]
          rw [List.append_assoc]
          congr 1
        | false =>
          simp only [step, if_neg hn]
          rw [if_neg (by simp : ¬ (false = true))]
          simp only [allBytes, pend, evData, List.map_append, List.flatten_append,
            List.map_cons, List.map_nil, List.flatten_cons, List.flatten_nil, List.append_nil]
          rw [List.append_assoc]
          congr 1
    | disconnected => simp [step, allBytes, pend, evData]
    | live => simp [step, allBytes, pend, evData]
    | liveEof => simp [step, allBytes, pend, evData]
  | peerEof =>
    cases m <;> simp [step, allBytes, pend, evData]

theorem foldl_inv_bytes (evs : List Ev) : ∀ st : ClientState, Inv st →
    Inv (evs.foldl step st) ∧
      allBytes (evs.foldl step st) = allBytes st ++ inputBytes evs := by
  induction evs with
  | nil => intro st h; exact ⟨h, by simp [inputBytes]⟩
  | cons e evs ih =>
    intro st h
    obtain ⟨ih1, ih2⟩ := ih (step st e) (step_inv e h)
    refine ⟨ih1, ?_⟩
    rw [List.foldl_cons, ih2, step_bytes e h, inputBytes_cons, List.append_assoc]

theorem run_inv (evs : List Ev) : Inv (runClient evs) :=
  (foldl_inv_bytes evs initClient inv_init).1

theorem run_bytes (evs : List Ev) : allBytes (runClient evs) = inputBytes evs := by
  have h := (foldl_inv_bytes evs initClient inv_init).2
  simpa [allBytes, pend, initClient] using h

theorem step_log_true {st : ClientState} (e : Ev) (hall : ∀ x ∈ st.log, x.2 = true)
    (he : e ≠ Ev.drainStep false) : ∀ x ∈ (step st e).log, x.2 = true := by
  obtain ⟨m, bk, off, lg⟩ := st
  simp only at hall
  cases e with
  | input data ok =>
    cases m with
    | disconnected => simpa [step] using hall
    | draining => simpa [step] using hall
    | liveEof => simpa [step] using hall
    | live =>
      cases ok with
      | true =>
        intro x hx
        simp only [step, if_pos rfl] at hx
        rw [if_pos trivial] at hx
        simp only [List.mem_append, List.mem_singleton] at hx
        rcases hx with hx | hx
        · exact hall x hx
        · subst hx; rfl
      | false =>
        intro x hx
        simp only [step] at hx
        rw [if_neg (by simp : ¬ (false = true))] at hx
        exact hall x hx
  | connectOk => cases m <;> simpa [step] using hall
  | connectFail => simpa [step] using hall
  | drainStep ok =>
    cases ok with
    | false => exact absurd rfl he
    | true =>
      cases m with
      | disconnected => simpa [step] using hall
      | live => simpa [step] using hall
      | liveEof => simpa [step] using hall
      | draining =>
        by_cases hn : preadLen ⟨.draining, bk, off, lg⟩ = 0
        · intro x hx
          simp only [step, if_pos hn] at hx
          exact hall x hx
        · intro x hx
          simp only [step, if_neg hn] at hx
          rw [if_pos trivial] at hx
          simp only [List.mem_append, List.mem_singleton] at hx
          rcases hx with hx | hx
          · exact hall x hx
          · subst hx; rfl
  | peerEof => cases m <;> simpa [step] using hall

theorem foldl_log_true (evs : List Ev) : ∀ st : ClientState,
    (∀ x ∈ st.log, x.2 = true) → Ev.drainStep false ∉ evs →
    ∀ x ∈ (evs.foldl step st).log, x.2 = true := by
  induction evs with
  | nil => intro st h _; simpa using h
  | cons e evs ih =>
    intro st h hmem
    simp only [List.mem_cons] at hmem
    push_neg at hmem
    rw [List.foldl_cons]
    exact ih (step st e) (step_log_true e h (fun hc => hmem.1 hc.symm)) hmem.2

theorem delivered_eq_all {st : ClientState} (hall : ∀ x ∈ st.log, x.2 = true) :
    deliveredBytes st = (st.log.map Prod.fst).flatten := by
  unfold deliveredBytes
  rw [List.filter_eq_self.mpr hall]

/-- C1 counterexample: with the trace — spill one byte `A` to the backlog
while disconnected, connect, suffer a single write failure while draining the
backlog, reconnect, finish the (now skipped-past) drain, then deliver a byte
`B` live — the collector receives exactly `B` while the forwarder read
`A ++ B`, and nothing is pending in the backlog.  The delivered bytes are not
the input bytes minus an undelivered shutdown-window suffix: the missing `A`
is interior.  -/
theorem forwarder_no_loss_counterexample :
    deliveredBytes (runClient
      [.input [65] true, .connectOk, .drainStep false, .connectOk, .drainStep true,
        .input [66] true]) = [66] ∧
    pend (runClient
      [.input [65] true, .connectOk, .drainStep false, .connectOk, .drainStep true,
        .input [66] true]) = [] ∧
    inputBytes
      [.input [65] true, .connectOk, .drainStep false, .connectOk, .drainStep true,
        .input [66] true] = [65, 66] ∧
    ¬ ∃ k, deliveredBytes (runClient
      [.input [65] true, .connectOk, .drainStep false, .connectOk, .drainStep true,
        .input [66] true]) =
      (inputBytes
        [.input [65] true, .connectOk, .drainStep false, .connectOk, .drainStep true,
          .input [66] true]).take k := by
  refine ⟨by decide, by decide, by decide, ?_⟩
  rintro ⟨k, hk⟩
  rw [(by decide : deliveredBytes (runClient
      [.input [65] true, .connectOk, .drainStep false, .connectOk, .drainStep true,
        .input [66] true]) = [66]),
    (by decide : inputBytes
      [.input [65] true, .connectOk, .drainStep false, .connectOk, .drainStep true,
        .input [66] true] = [65, 66])] at hk
  rcases k with _ | k <;> simp [List.take] at hk

/-- C1 (amended): as long as no write fails *during a backlog drain*, the
bytes delivered to the collector followed by the still-undelivered backlog
tail equal the concatenation of the input chunks in order — this holds under
arbitrary connect successes, connect failures, direct-write failures and
peer half-close events.  (When a drain write does fail, the up-to-4096-byte
chunk read for that write has already been skipped by the cursor and is
lost, as the counterexample shows.) -/
theorem forwarder_no_loss_amended (evs : List Ev) (h : Ev.drainStep false ∉ evs) :
    deliveredBytes (runClient evs) ++ pend (runClient evs) = inputBytes evs := by
  have hall : ∀ x ∈ (runClient evs).log, x.2 = true :=
    foldl_log_true evs initClient (by simp [initClient]) h
  rw [delivered_eq_all hall]
  exact run_bytes evs

/-- Witness for `forwarder_no_loss_amended`: a failure-free trace delivering
`A` from the backlog and `B` live. -/
theorem forwarder_no_loss_amended_witness :
    Ev.drainStep false ∉
      [Ev.input [65] true, .connectOk, .drainStep true, .drainStep true, .input [66] true] ∧
    deliveredBytes (runClient
        [.input [65] true, .connectOk, .drainStep true, .drainStep true, .input [66] true]) ++
      pend (runClient
        [.input [65] true, .connectOk, .drainStep true, .drainStep true, .input [66] true]) =
      inputBytes
        [.input [65] true, .connectOk, .drainStep true, .drainStep true, .input [66] true] :=
  ⟨by decide, forwarder_no_loss_amended _ (by decide)⟩

/-- C2 counterexample: after spilling byte `A` and starting a drain, a single
failed drain write leaves the cursor at 1 — past the unconfirmed byte — with
nothing delivered; and after reconnecting and completing the drain, the byte
has still not been re-sent (nothing delivered, nothing pending): the cursor
does not advance "only over bytes whose write has been confirmed", and the
failed bytes are not re-sent by the restarted reconnect process. -/
theorem forwarder_cursor_counterexample :
    (runClient [.input [65] true, .connectOk, .drainStep false]).backlogOffset = 1 ∧
    deliveredBytes (runClient [.input [65] true, .connectOk, .drainStep false]) = [] ∧
    deliveredBytes (runClient
      [.input [65] true, .connectOk, .drainStep false, .connectOk, .drainStep true]) = [] ∧
    pend (runClient
      [.input [65] true, .connectOk, .drainStep false, .connectOk, .drainStep true]) = [] := by
  decide

/-- C2 (amended): during the backlog-drain sub-loop the cursor advances by
the number of bytes `pread` returned *before* the write of those bytes is
confirmed; on a failed drain write the failed chunk is recorded as lost, the
connection is discarded and the reconnect process restarts — the lost bytes
sit *behind* the cursor and are never re-sent.  Every input byte is accounted
for exactly once, in order, among the write attempts (successful or lost)
followed by the pending backlog tail, so bytes are never delivered out of
order or twice. -/
theorem forwarder_cursor_amended :
    (∀ (st : ClientState) (ok : Bool), st.mode = .draining → preadLen st ≠ 0 →
      (step st (.drainStep ok)).backlogOffset = st.backlogOffset + preadLen st ∧
      (ok = false →
        (step st (.drainStep ok)).log = st.log ++ [(preadChunk st, false)] ∧
        (step st (.drainStep ok)).mode = .disconnected)) ∧
    (∀ evs : List Ev, allBytes (runClient evs) = inputBytes evs) := by
  constructor
  · intro st ok hm hn
    obtain ⟨m, bk, off, lg⟩ := st
    simp only at hm
    subst hm
    cases ok with
    | true =>
      constructor
      · simp only [step, if_neg hn]
        rw [if_pos trivial]
      · intro h; cases h
    | false =>
      refine ⟨?_, fun _ => ⟨?_, ?_⟩⟩ <;>
        · simp only [step, if_neg hn]
          rw [if_neg (by simp : ¬ (false = true))]
  · exact run_bytes

/-- Witness for `forwarder_cursor_amended`: a concrete draining state with one
pending byte, and a concrete trace. -/
theorem forwarder_cursor_amended_witness :
    (step ⟨.draining, [65], 0, []⟩ (.drainStep false)).backlogOffset = 0 + preadLen ⟨.draining, [65], 0, []⟩ ∧
      allBytes (runClient [Ev.input [65] true]) = inputBytes [Ev.input [65] true] :=
  ⟨(forwarder_cursor_amended.1 ⟨.draining, [65], 0, []⟩ false rfl (by decide)).1,
    forwarder_cursor_amended.2 [Ev.input [65] true]⟩

/-- C5: the per-chunk decision of `LogClient::run`: with no connection the
chunk is appended to the backlog; with a connection flagged half-closed
(`receivedEof`) no write is attempted, the chunk is spilled, the connection
is discarded and reconnect restarts; with a healthy connection the chunk is
written, and on write failure the connection is torn down, the same chunk is
spilled and reconnect restarts.  (`draining` is also a no-connection state:
`connection` is only set once the backlog drain completes.) -/
theorem forwarder_chunk_decision (st : ClientState) (data : List Nat) (ok : Bool) :
    ((st.mode = .disconnected ∨ st.mode = .draining) →
      step st (.input data ok) = { st with backlog := st.backlog ++ data }) ∧
    (st.mode = .liveEof →
      step st (.input data ok) =
        { st with mode := .disconnected, backlog := st.backlog ++ data }) ∧
    (st.mode = .live → ok = true →
      step st (.input data ok) = { st with log := st.log ++ [(data, true)] }) ∧
    (st.mode = .live → ok = false →
      step st (.input data ok) =
        { st with mode := .disconnected, backlog := st.backlog ++ data }) := by
  obtain ⟨m, bk, off, lg⟩ := st
  refine ⟨?_, ?_, ?_, ?_⟩
  · rintro (hm | hm) <;> (simp only at hm; subst hm; simp [step])
  · intro hm; simp only at hm; subst hm; simp [step]
  · intro hm hok
    simp only at hm
    subst hm; subst hok
    simp only [step]
    rw [if_pos trivial]
  · intro hm hok
    simp only at hm
    subst hm; subst hok
    simp only [step]
    rw [if_neg (by simp : ¬ (false = true))]

/-- Witness for `forwarder_chunk_decision`: a live connection with a failed
write tears down and spills. -/
theorem forwarder_chunk_decision_witness :
    step ⟨Mode.live, [], 0, []⟩ (.input [65] false) = ⟨Mode.disconnected, [65], 0, []⟩ := by
  have h := (forwarder_chunk_decision ⟨Mode.live, [], 0, []⟩ [65] false).2.2.2 rfl rfl
  simpa using h

theorem shutdownRun_unlink_mode (post : List PostEv) : ∀ st : ClientState,
    (shutdownRun st post).2 = true → (shutdownRun st post).1.mode = .liveEof := by
  induction post with
  | nil =>
    intro st h
    by_cases hm : st.mode = .liveEof
    · simpa [shutdownRun, hm] using hm
    · simp [shutdownRun, hm] at h
  | cons pe rest ih =>
    intro st h
    by_cases hm : st.mode = .liveEof
    · simpa [shutdownRun, hm] using hm
    · cases pe with
      | timeout => simp [shutdownRun, hm] at h
      | ev e =>
        simp only [shutdownRun, if_neg hm] at h ⊢
        exact ih (step st e) h

theorem shutdownRun_inv (post : List PostEv) : ∀ st : ClientState, Inv st →
    Inv ((shutdownRun st post).1) := by
  induction post with
  | nil =>
    intro st h
    by_cases hm : st.mode = .liveEof <;> simpa [shutdownRun, hm] using h
  | cons pe rest ih =>
    intro st h
    by_cases hm : st.mode = .liveEof
    · simpa [shutdownRun, hm] using h
    · cases pe with
      | timeout => simpa [shutdownRun, hm] using h
      | ev e =>
        simp only [shutdownRun, if_neg hm]
        exact ih (step st e) (step_inv e h)

theorem step_ne_liveEof {st : ClientState} (e : Ev) (hm : st.mode ≠ .liveEof)
    (he : e ≠ Ev.peerEof) : (step st e).mode ≠ .liveEof := by
  obtain ⟨m, bk, off, lg⟩ := st
  simp only at hm
  cases e with
  | input data ok =>
    cases m with
    | disconnected => simp [step]
    | draining => simp [step]
    | liveEof => simp [step]
    | live =>
      cases ok with
      | true =>
        simp only [step]
        rw [if_pos trivial]
        simp
      | false =>
        simp only [step]
        rw [if_neg (by simp : ¬ (false = true))]
        simp
  | connectOk => cases m <;> simpa [step] using hm
  | connectFail => simpa [step] using hm
  | drainStep ok =>
    cases m with
    | disconnected => simpa [step] using hm
    | live => simpa [step] using hm
    | liveEof => simpa [step] using hm
    | draining =>
      by_cases hn : preadLen ⟨.draining, bk, off, lg⟩ = 0
      · simp [step, hn]
      · cases ok with
        | true =>
          simp only [step, if_neg hn]
          rw [if_pos trivial]
          simp
        | false =>
          simp only [step, if_neg hn]
          rw [if_neg (by simp : ¬ (false = true))]
          simp
  | peerEof => exact absurd rfl he

theorem shutdownRun_no_peerEof (post : List PostEv) : ∀ st : ClientState,
    st.mode ≠ .liveEof → PostEv.ev Ev.peerEof ∉ post →
    (shutdownRun st post).2 = false := by
  induction post with
  | nil => intro st hm _; simp [shutdownRun, hm]
  | cons pe rest ih =>
    intro st hm hmem
    simp only [List.mem_cons] at hmem
    push_neg at hmem
    cases pe with
    | timeout => simp [shutdownRun, hm]
    | ev e =>
      simp only [shutdownRun, if_neg hm]
      refine ih (step st e) (step_ne_liveEof e hm ?_) hmem.2
      intro hc
      exact hmem.1 (by rw [hc])

/-- C8 counterexample: spill a byte, connect, and completely drain the backlog
to the collector (the state is `live` with an empty, truncated backlog file)
before local EOF; the collector keeps the connection open, so the grace timer
fires first — and the backlog file is *not* deleted, although the drain
completed well within the grace period.  Deletion additionally requires the
collector to close (or error) the connection, because `reconnectTask` only
resolves through `awaitEof`. -/
theorem forwarder_shutdown_counterexample :
    pend (runClient [.input [65] true, .connectOk, .drainStep true, .drainStep true]) = [] ∧
    (runClient [.input [65] true, .connectOk, .drainStep true, .drainStep true]).mode =
      .live ∧
    (shutdownRun (runClient [.input [65] true, .connectOk, .drainStep true, .drainStep true])
      [.timeout]).2 = false := by
  decide

/-- C8 (amended): after local EOF the forwarder waits for the write queue and
then races the reconnect task against the 30-second grace timer.  The file is
deleted exactly when the reconnect task has resolved — which requires the
backlog to be fully drained *and* the collector to have closed or errored the
connection — before the grace timer fires; if the timer fires first (even
with the backlog fully drained and truncated to empty) the file is left in
place, and the process simply exits without raising an error. -/
theorem forwarder_shutdown_amended (st : ClientState) (post : List PostEv) :
    (st.mode = .liveEof → shutdownRun st post = (st, true)) ∧
    (st.mode ≠ .liveEof → shutdownRun st (.timeout :: post) = (st, false)) := by
  constructor
  · intro hm
    cases post <;> simp [shutdownRun, hm]
  · intro hm
    simp [shutdownRun, hm]

/-- Witness for `forwarder_shutdown_amended`: a resolved reconnect task
unlinks immediately; an unresolved one hits the timer and leaves the file. -/
theorem forwarder_shutdown_amended_witness :
    shutdownRun ⟨Mode.liveEof, [], 0, []⟩ [] = (⟨Mode.liveEof, [], 0, []⟩, true) ∧
      shutdownRun ⟨Mode.live, [], 0, []⟩ [.timeout] = (⟨Mode.live, [], 0, []⟩, false) :=
  ⟨(forwarder_shutdown_amended ⟨Mode.liveEof, [], 0, []⟩ []).1 rfl,
    (forwarder_shutdown_amended ⟨Mode.live, [], 0, []⟩ []).2 (by decide)⟩

/-- C10: the backlog file is unlinked only when the reconnect task has
resolved, i.e. only in `liveEof` mode — a state in which the backlog was
fully drained (file truncated to empty, cursor reset) and the `awaitEof`
watcher has observed peer EOF or a read error on the drained connection.  If
the collector never closes or errors the connection (no `peerEof` event)
before the grace timer, the file is not unlinked and remains on disk. -/
theorem forwarder_unlink_requires_peer_close (evs : List Ev) (post : List PostEv) :
    ((shutdownRun (runClient evs) post).2 = true →
      (shutdownRun (runClient evs) post).1.mode = .liveEof ∧
      (shutdownRun (runClient evs) post).1.backlog = [] ∧
      (shutdownRun (runClient evs) post).1.backlogOffset = 0) ∧
    ((runClient evs).mode ≠ .liveEof → PostEv.ev Ev.peerEof ∉ post →
      (shutdownRun (runClient evs) post).2 = false) := by
  constructor
  · intro h
    have hmode := shutdownRun_unlink_mode post (runClient evs) h
    have hinv := shutdownRun_inv post (runClient evs) (run_inv evs)
    obtain ⟨hb, ho⟩ := hinv.2 (Or.inr hmode)
    exact ⟨hmode, hb, ho⟩
  · exact shutdownRun_no_peerEof post (runClient evs)

/-- Witness for `forwarder_unlink_requires_peer_close`: a trace that drains
fully and then sees the peer close during the grace window unlinks, and the
final state is the fully-drained `liveEof` state. -/
theorem forwarder_unlink_requires_peer_close_witness :
    (shutdownRun (runClient [.input [65] true, .connectOk, .drainStep true, .drainStep true])
        [.ev .peerEof, .ev .connectFail]).2 = true ∧
    (shutdownRun (runClient [.input [65] true, .connectOk, .drainStep true, .drainStep true])
        [.ev .peerEof, .ev .connectFail]).1.mode = .liveEof ∧
    (shutdownRun (runClient [.input [65] true, .connectOk, .drainStep true, .drainStep true])
        [.ev .peerEof, .ev .connectFail]).1.backlog = [] ∧
    (shutdownRun (runClient [.input [65] true, .connectOk, .drainStep true, .drainStep true])
        [.ev .peerEof, .ev .connectFail]).1.backlogOffset = 0 := by
  have h2 := (forwarder_unlink_requires_peer_close
    [.input [65] true, .connectOk, .drainStep true, .drainStep true]
    [.ev .peerEof, .ev .connectFail]).1 (by decide)
  exact ⟨by decide, h2⟩

theorem rotStep_inv {st : RotState} (chunk : List Nat) (dayNow : Nat)
    (h : RotInv st) : RotInv (rotStep st chunk dayNow) := by
  obtain ⟨h1, h2⟩ := h
  have hchain : NoSplit (st.writes ++ [(st.day, chunk)]) := by
    refine List.chain'_append.mpr ⟨h1, List.chain'_singleton _, ?_⟩
    intro x hx y hy
    simp only [List.head?_cons, Option.mem_def, Option.some.injEq] at hy
    subst hy
    exact h2 x hx
  by_cases hc : st.day < dayNow ∧ chunk.getLast? = some 10
  · refine ⟨by simpa [rotStep, hc] using hchain, ?_⟩
    intro x hx _
    simp only [rotStep, if_pos hc, List.getLast?_concat, Option.mem_def,
      Option.some.injEq] at hx
    subst hx
    exact hc.2
  · refine ⟨by simpa [rotStep, hc] using hchain, ?_⟩
    intro x hx hne
    simp only [rotStep, if_neg hc, List.getLast?_concat, Option.mem_def,
      Option.some.injEq] at hx hne
    subst hx
    simp at hne

theorem rotRun_inv (events : List (List Nat × Nat)) : ∀ st : RotState,
    RotInv st → RotInv (rotRun st events) := by
  induction events with
  | nil => intro st h; simpa [rotRun] using h
  | cons e rest ih =>
    intro st h
    obtain ⟨c, d⟩ := e
    simp only [rotRun]
    exact ih _ (rotStep_inv c d h)

/-- C7: the rotator closes the open day file exactly when, after a write, the
current day has advanced past the open file's day *and* the chunk just
written ended with a newline byte (otherwise the file stays open, and a
freshly closed file is reopened only by the next chunk's write); every chunk
is appended to the file of the day the file was opened for; and consequently
on any run, two consecutive appends landing in different day files are
separated by a newline-terminated chunk — no input line's bytes ever appear
in two different day files. -/
theorem rotator_day_boundary :
    (∀ (st : RotState) (chunk : List Nat) (dayNow : Nat),
      ((rotStep st chunk dayNow).isOpen = false ↔
        (st.day < dayNow ∧ chunk.getLast? = some 10)) ∧
      (rotStep st chunk dayNow).writes = st.writes ++ [(st.day, chunk)]) ∧
    (∀ (d0 : Nat) (events : List (List Nat × Nat)),
      NoSplit ((rotRun (initRot d0) events).writes)) := by
  constructor
  · intro st chunk dayNow
    constructor
    · by_cases hc : st.day < dayNow ∧ chunk.getLast? = some 10
      · simp [rotStep, hc]
      · simp [rotStep, hc]
    · by_cases hc : st.day < dayNow ∧ chunk.getLast? = some 10
      · simp [rotStep, hc]
      · simp [rotStep, hc]
  · intro d0 events
    have h := rotRun_inv events (initRot d0) ⟨List.chain'_nil, by simp [initRot]⟩
    exact h.1

/-- Witness for `rotator_day_boundary`: a day-crossing run whose first chunk
is newline-terminated rotates cleanly, and a non-newline chunk keeps the
file open. -/
theorem rotator_day_boundary_witness :
    ((rotStep (initRot 5) [72, 10] 6).isOpen = false ↔
      ((initRot 5).day < 6 ∧ ([72, 10] : List Nat).getLast? = some 10)) ∧
      NoSplit ((rotRun (initRot 5) [([72, 10], 6), ([66], 7)]).writes) :=
  ⟨(rotator_day_boundary.1 (initRot 5) [72, 10] 6).1,
    rotator_day_boundary.2 5 [([72, 10], 6), ([66], 7)]⟩

end Blackrock
